import Mathlib

/-!
Shallow embedding of `pat-glitch/cidr-converter` (Go).

The repository stores IPv4 CIDR ranges as `*net.IPNet` values whose `IP`
is the 4-byte base address and whose `Mask` is a CIDR mask of `ones`
leading one-bits out of 32.  We model such a value as a `Block` holding
the base address as a natural number below `2^32` together with the
number of mask bits.  `bytes.Compare` on two 4-byte IPs is exactly the
numeric comparison of these naturals.

All functions are translated from `src/cidr-converter.go`.  The file
contains two revisions of the program separated by a document marker;
where they differ (`canAggregate`) both revisions are embedded.
Go's `sort.Slice` with a comparator on the base address alone is embedded
as a stable insertion sort by base address: for the slice sizes exercised
here Go's pdqsort takes its insertion-sort path, which performs no swap
on equal keys, so ties keep their input order.

`net.ParseIP`, used by the membership query, accepts both IPv4 and IPv6
literals; both are modelled (IPv6 per `netip.parseIPv6`, with `%` zones
rejected as `ParseIP` does), a parsed address being the 16-byte form as
a natural number below `2^128`, IPv4 literals in their IPv4-mapped
`::ffff:a.b.c.d` form as Go's `As16` produces them.
-/

namespace CidrConverter

/-- Model of a `*net.IPNet` holding an IPv4 CIDR range: `ip` is the
4-byte base address read as a natural number, `ones` the number of
leading one-bits of the CIDR mask (`Mask.Size()`'s first component). -/
structure Block where
  ip : Nat
  ones : Nat
  deriving DecidableEq, Repr

/-- `2^(32-n)` — the number of addresses covered by a mask of `n` ones. -/
def blockSize (b : Block) : Nat := 2 ^ (32 - b.ones)

/-- `a` masked with a CIDR mask of `n` leading ones: the low `32-n` bits
are cleared.  For `a < 2^32` this equals Go's `a.Mask(net.CIDRMask(n, 32))`. -/
def maskAddr (a n : Nat) : Nat := a / 2 ^ (32 - n) * 2 ^ (32 - n)

/-- Go `(*net.IPNet).Contains(ip)`: the query address masked with the
block's mask equals the block's base address. -/
def containsIP (b : Block) (ip : Nat) : Bool := maskAddr ip b.ones == b.ip

/-- A `Block` as produced by `net.ParseCIDR`: mask length at most 32 and
host bits of the base address zero. -/
def Canonical (b : Block) : Prop := b.ones ≤ 32 ∧ b.ip % blockSize b = 0

instance (b : Block) : Decidable (Canonical b) := by unfold Canonical; exact inferInstance

/-! ## Sorting (`sort.Slice` with `bytes.Compare(IP_i, IP_j) < 0`) -/

/-- Insert into a sorted list, after any elements with an equal or
smaller base address (Go's insertion sort moves an element left only
while strictly less, so equal keys keep their relative order). -/
def insSorted : List Block → Block → List Block
  | [], x => [x]
  | y :: ys, x => if x.ip < y.ip then x :: y :: ys else y :: insSorted ys x

/-- `sort.Slice(cidrs, func(i, j) { ... bytes.Compare ... < 0 })`. -/
def sortByBase (l : List Block) : List Block := l.foldl insSorted []

/-! ## mergeCIDRs (lines 92-110 and 270-296, identical logic) -/

/-- The scan loop of `mergeCIDRs`: `last` is the most recently kept
block; a block whose base address `last` contains is dropped. -/
def mergeKeep : Block → List Block → List Block
  | _, [] => []
  | last, c :: cs =>
    if containsIP last c.ip then mergeKeep last cs else c :: mergeKeep c cs

/-- `mergeCIDRs`: sort by base address, then keep each block unless the
previously kept block contains its base address. -/
def mergeCIDRs (l : List Block) : List Block :=
  match sortByBase l with
  | [] => []
  | c :: cs => c :: mergeKeep c cs

/-! ## aggregateCIDRs and helpers -/

/-- `canAggregate` of the second revision (lines 326-338): equal mask
sizes and `bytes.Compare(a.IP, b.IP)` equal to `1` or `-1`, i.e. the two
base addresses are merely different (`bytes.Compare` only ever returns
`-1`, `0` or `1`).  No bit-alignment test is performed. -/
def canAggregate (a b : Block) : Bool :=
  a.ones == b.ones && a.ip != b.ip

/-- `canAggregate` of the first revision (lines 136-146): equal mask
sizes and `bytes.Compare(a.IP, b.IP) == 0`, i.e. identical base
addresses. -/
def canAggregateV1 (a b : Block) : Bool :=
  a.ones == b.ones && a.ip == b.ip

/-- `mergeTwoCIDRs` (lines 340-355): the "parent" block with one mask
bit fewer, based at `a`'s address masked to `ones-1` bits.  (`ones = 0`
never reaches this function through `canAggregate`; Nat subtraction
truncates that degenerate case at 0.) -/
def mergeTwoCIDRs (a _b : Block) : Block :=
  ⟨maskAddr a.ip (a.ones - 1), a.ones - 1⟩

/-- The inner loop of `aggregateCIDRs`: find the first aggregated block
that `canAggregate` with `c` and replace it by the merged parent;
`none` when no such block exists. -/
def tryAggregate : List Block → Block → Option (List Block)
  | [], _ => none
  | a :: rest, c =>
    if canAggregate a c then some (mergeTwoCIDRs a c :: rest)
    else (tryAggregate rest c).map (fun r => a :: r)

/-- `aggregateCIDRs` (lines 299-323): a single pass over the sorted
input, merging each block into the first eligible accumulated block or
appending it. -/
def aggregateCIDRs (l : List Block) : List Block :=
  (sortByBase l).foldl (fun acc c => (tryAggregate acc c).getD (acc ++ [c])) []

/-! ## String parsing (`net.ParseCIDR` on the repository's IPv4 CIDR
domain, and `net.ParseIP` in full, IPv6 literals included).
Strings are processed through their character lists. -/

/-- `strings.Split` on a single separator character. -/
def splitOnChar (sep : Char) : List Char → List (List Char)
  | [] => [[]]
  | c :: cs =>
    if c = sep then [] :: splitOnChar sep cs
    else
      match splitOnChar sep cs with
      | [] => [[c]]
      | f :: rest => (c :: f) :: rest

/-- Decimal value of a digit string. -/
def digitsToNat (cs : List Char) : Nat := cs.foldl (fun a c => a * 10 + (c.toNat - 48)) 0

/-- A valid dotted-quad field for `net.ParseIP` / `net.ParseCIDR`:
one to three decimal digits, no leading zero (rejected since Go 1.17),
value at most 255. -/
def validOctetStr (cs : List Char) : Bool :=
  decide (1 ≤ cs.length) && decide (cs.length ≤ 3) && cs.all Char.isDigit
    && (cs.length == 1 || cs.head? != some '0') && decide (digitsToNat cs ≤ 255)

/-- A valid CIDR mask-length field: decimal digits with value 0-32. -/
def validMaskStr (cs : List Char) : Bool :=
  decide (1 ≤ cs.length) && decide (cs.length ≤ 2) && cs.all Char.isDigit
    && decide (digitsToNat cs ≤ 32)

/-- Four dotted-quad fields as a 32-bit address, when all are valid. -/
def parseIPFields (f1 f2 f3 f4 : List Char) : Option Nat :=
  if validOctetStr f1 && validOctetStr f2 && validOctetStr f3 && validOctetStr f4 then
    some (((digitsToNat f1 * 256 + digitsToNat f2) * 256 + digitsToNat f3) * 256
      + digitsToNat f4)
  else none

/-- The IPv4 dotted-quad parser (`netip.parseIPv4`), returning the
address as a natural number below `2^32`. -/
def parseIPChars (cs : List Char) : Option Nat :=
  match splitOnChar '.' cs with
  | [a, b, c, d] => parseIPFields a b c d
  | _ => none

/-- Whether a string is a well-formed IPv4 dotted-quad literal. -/
def wellFormedIPv4Chars (cs : List Char) : Bool :=
  match splitOnChar '.' cs with
  | [a, b, c, d] => validOctetStr a && validOctetStr b && validOctetStr c && validOctetStr d
  | _ => false

def wellFormedIPv4 (s : String) : Bool := wellFormedIPv4Chars s.data

/-! ### `net.ParseIP` in full: IPv4 and IPv6 literals.

`net.ParseIP` delegates to `netip.ParseAddr` and rejects zoned
addresses; the first `.`, `:` or `%` of the text selects the IPv4
parser, the IPv6 parser, or failure.  A successful parse yields a
16-byte address (an IPv4 literal as its IPv4-mapped `::ffff:a.b.c.d`
form), modelled as a natural number below `2^128`. -/

/-- A hexadecimal digit (IPv6 group character). -/
def isHexChar (c : Char) : Bool :=
  c.isDigit || (decide ('a' ≤ c) && decide (c ≤ 'f')) || (decide ('A' ≤ c) && decide (c ≤ 'F'))

/-- Value of a hexadecimal digit. -/
def hexDigitVal (c : Char) : Nat :=
  if c.isDigit then c.toNat - 48
  else if decide ('a' ≤ c) && decide (c ≤ 'f') then c.toNat - 87
  else c.toNat - 55

/-- Hexadecimal value of a digit string. -/
def hexVal (cs : List Char) : Nat := cs.foldl (fun a c => a * 16 + hexDigitVal c) 0

/-- A valid IPv6 group: at least one hex digit, value at most `0xFFFF`
(`netip` accumulates digits and fails once the value exceeds 16 bits,
so leading zeros are allowed and the digit count is not limited). -/
def validHexGroup (cs : List Char) : Bool :=
  decide (1 ≤ cs.length) && cs.all isHexChar && decide (hexVal cs ≤ 65535)

/-- Split at the first adjacent colon pair (the `::` ellipsis):
`some (before, after)` when present. -/
def splitEllipsis : List Char → Option (List Char × List Char)
  | [] => none
  | [_] => none
  | c1 :: c2 :: rest =>
    if c1 = ':' ∧ c2 = ':' then some ([], rest)
    else (splitEllipsis (c2 :: rest)).map (fun p => (c1 :: p.1, p.2))

/-- The colon-separated groups of one side of the ellipsis; an empty
side contributes no groups. -/
def sideGroups (cs : List Char) : List (List Char) :=
  if cs.isEmpty then [] else splitOnChar ':' cs

/-- Parse colon-separated fields as 16-bit hex groups (no embedded
IPv4 allowed: the side before the ellipsis). -/
def parseHexGroups : List (List Char) → Option (List Nat)
  | [] => some []
  | f :: fs =>
    if validHexGroup f then (parseHexGroups fs).map (fun r => hexVal f :: r) else none

/-- Parse colon-separated fields as 16-bit hex groups where the final
field may instead be an embedded dotted-quad IPv4 address contributing
two groups (`netip` accepts an embedded IPv4 only as the very last
field; anywhere else the dot makes the hex scan fail). -/
def parseGroupsV4 : List (List Char) → Option (List Nat)
  | [] => some []
  | [f] =>
    if validHexGroup f then some [hexVal f]
    else
      match parseIPChars f with
      | some a => some [a / 65536, a % 65536]
      | none => none
  | f :: fs =>
    if validHexGroup f then (parseGroupsV4 fs).map (fun r => hexVal f :: r) else none

/-- Concatenate 16-bit groups into one natural number. -/
def assembleGroups (gs : List Nat) : Nat := gs.foldl (fun a g => a * 65536 + g) 0

/-- `netip.parseIPv6` (without zones): one optional `::` filling with
zero groups, eight 16-bit groups in total — exactly eight without the
ellipsis, at most seven with it (the ellipsis must stand for at least
one zero group). -/
def parseIPv6Chars (cs : List Char) : Option Nat :=
  match splitEllipsis cs with
  | some (before, after) =>
    if (splitEllipsis after).isSome then none
    else
      match parseHexGroups (sideGroups before), parseGroupsV4 (sideGroups after) with
      | some g1, some g2 =>
        if g1.length + g2.length ≤ 7 then
          some (assembleGroups (g1 ++ List.replicate (8 - g1.length - g2.length) 0 ++ g2))
        else none
      | _, _ => none
  | none =>
    match parseGroupsV4 (sideGroups cs) with
    | some g => if g.length = 8 then some (assembleGroups g) else none
    | none => none

/-- The first `.` or `:` of the text (`netip.ParseAddr`'s dispatch). -/
def firstSpecial : List Char → Option Char
  | [] => none
  | c :: cs => if c = '.' ∨ c = ':' then some c else firstSpecial cs

/-- `net.ParseIP`: a text containing `%` never yields an address (the
dispatch and both parsers reject it, and `ParseIP` rejects zones); the
first `.` or `:` selects the IPv4 or IPv6 parser.  An IPv4 literal is
returned in its IPv4-mapped 16-byte form, as Go's `As16` does. -/
def parseIPAddrChars (cs : List Char) : Option Nat :=
  if '%' ∈ cs then none
  else
    match firstSpecial cs with
    | some '.' => (parseIPChars cs).map (fun a => 65535 * 2 ^ 32 + a)
    | some ':' => parseIPv6Chars cs
    | _ => none

def parseIP (s : String) : Option Nat := parseIPAddrChars s.data

/-- `IP.To4` on a 16-byte address: defined exactly on the IPv4-mapped
`::ffff:a.b.c.d` range (bytes 0-9 zero, bytes 10-11 `0xff`). -/
def toV4 (v : Nat) : Option Nat :=
  if v / 2 ^ 32 = 65535 then some (v % 2 ^ 32) else none

/-- `(*net.IPNet).Contains` for a 16-byte query against a 4-byte IPv4
network: the query is converted with `To4` and compared masked; a
non-IPv4-mapped address never matches (the length test fails). -/
def queryMatches (b : Block) (v : Nat) : Bool :=
  match toV4 v with
  | some ip4 => containsIP b ip4
  | none => false

/-- The raw `(address, mask length)` pair of a CIDR text, before the
base address is masked. -/
def parseCIDRRawChars (cs : List Char) : Option (Nat × Nat) :=
  match splitOnChar '/' cs with
  | [ipPart, maskPart] =>
    match parseIPChars ipPart with
    | some a => if validMaskStr maskPart then some (a, digitsToNat maskPart) else none
    | none => none
  | _ => none

/-- `parseCIDR` (lines 17-26), delegating to `net.ParseCIDR`: on success
the returned `*net.IPNet` has the host bits of the address masked off. -/
def parseCIDRChars (cs : List Char) : Option Block :=
  (parseCIDRRawChars cs).map (fun p => ⟨maskAddr p.1 p.2, p.2⟩)

def parseCIDRRaw (s : String) : Option (Nat × Nat) := parseCIDRRawChars s.data

def parseCIDR (s : String) : Option Block := parseCIDRChars s.data

/-- `ipBelongsToCIDR` (lines 44-57): `none` models the
`invalid IP address` error (`net.ParseIP` returned nil); otherwise the
blocks whose range contains the query address, in set order. -/
def ipBelongsToCIDR (ipStr : String) (cidrs : List Block) : Option (List Block) :=
  match parseIP ipStr with
  | none => none
  | some v => some (cidrs.filter (fun c => queryMatches c v))

/-- Character of a decimal digit. -/
def digitChar (d : Nat) : Char := Char.ofNat (48 + d)

/-- Decimal rendering of a number below 1000 (octets and mask lengths). -/
def natChars (m : Nat) : List Char :=
  if m < 10 then [digitChar m]
  else if m < 100 then [digitChar (m / 10), digitChar (m % 10)]
  else [digitChar (m / 100), digitChar (m / 10 % 10), digitChar (m % 10)]

/-- `(*net.IPNet).String()` for an IPv4 CIDR block: `a.b.c.d/n`. -/
def renderBlock (b : Block) : String :=
  String.mk (natChars (b.ip / 16777216 % 256) ++ '.' ::
    natChars (b.ip / 65536 % 256) ++ '.' ::
    natChars (b.ip / 256 % 256) ++ '.' ::
    natChars (b.ip % 256) ++ '/' :: natChars b.ones)

/-- The star field of wildcard notation. -/
def starField : List Char := ['*']

/-- One field of the wildcard regular expression: a star or one to three
decimal digits. -/
def wildcardField (f : List Char) : Bool :=
  f == starField || (decide (1 ≤ f.length) && decide (f.length ≤ 3) && f.all Char.isDigit)

/-- `parseWildcard` (lines 60-89 and 358-387, identical): after the
shape check, every star field contributes a `0` octet and subtracts 8
from the `/32` mask length, at whatever position it occurs; the built
CIDR text is then handed to `parseCIDR`. -/
def parseWildcardChars (cs : List Char) : Option Block :=
  let fields := splitOnChar '.' cs
  if fields.length == 4 && fields.all wildcardField then
    let mapped := fields.map (fun f => if f == starField then ['0'] else f)
    let pfxLen := 32 - 8 * fields.countP (fun f => f == starField)
    parseCIDRChars (List.intercalate ['.'] mapped ++ '/' :: natChars pfxLen)
  else none

def parseWildcard (s : String) : Option Block := parseWildcardChars s.data

/-! ## Helper lemmas -/

lemma two_pow_pos_size (b : Block) : 0 < blockSize b := Nat.two_pow_pos _

/-- Range semantics of `(*net.IPNet).Contains` for a canonical block:
the mask-equality test holds exactly on the block's address interval. -/
lemma containsIP_true_iff (b : Block) (ip : Nat) (hc : Canonical b) :
    containsIP b ip = true ↔ b.ip ≤ ip ∧ ip < b.ip + blockSize b := by
  obtain ⟨-, hmod⟩ := hc
  have hspos : 0 < blockSize b := two_pow_pos_size b
  have hbase : b.ip / blockSize b * blockSize b = b.ip :=
    Nat.div_mul_cancel (Nat.dvd_of_mod_eq_zero hmod)
  unfold containsIP maskAddr
  rw [beq_iff_eq]
  show ip / blockSize b * blockSize b = b.ip ↔ b.ip ≤ ip ∧ ip < b.ip + blockSize b
  constructor
  · intro h
    have hd : ip / blockSize b * blockSize b ≤ ip := Nat.div_mul_le_self ip (blockSize b)
    have hm : ip % blockSize b < blockSize b := Nat.mod_lt ip hspos
    have he : blockSize b * (ip / blockSize b) + ip % blockSize b = ip :=
      Nat.div_add_mod ip (blockSize b)
    rw [Nat.mul_comm] at he
    constructor
    · rw [← h]; exact hd
    · rw [← h]; linarith
  · rintro ⟨h1, h2⟩
    have hk : ip / blockSize b = b.ip / blockSize b := by
      apply Nat.div_eq_of_lt_le
      · rw [hbase]; exact h1
      · rw [Nat.add_mul, Nat.one_mul, hbase]; exact h2
    rw [hk, hbase]

lemma mem_insSorted (b x : Block) : ∀ (acc : List Block),
    b ∈ insSorted acc x ↔ b = x ∨ b ∈ acc
  | [] => by simp [insSorted]
  | y :: ys => by
    unfold insSorted
    split
    · simp [List.mem_cons]
    · rw [List.mem_cons, mem_insSorted b x ys, List.mem_cons]
      tauto

lemma mem_foldl_insSorted (b : Block) : ∀ (l acc : List Block),
    b ∈ l.foldl insSorted acc ↔ b ∈ l ∨ b ∈ acc
  | [], acc => by simp
  | x :: l, acc => by
    simp only [List.foldl_cons]
    rw [mem_foldl_insSorted b l (insSorted acc x), mem_insSorted, List.mem_cons]
    tauto

lemma mem_sortByBase (b : Block) (l : List Block) : b ∈ sortByBase l ↔ b ∈ l := by
  unfold sortByBase
  rw [mem_foldl_insSorted]
  simp

lemma sorted_insSorted {acc : List Block} (x : Block)
    (h : List.Sorted (fun p q : Block => p.ip ≤ q.ip) acc) :
    List.Sorted (fun p q : Block => p.ip ≤ q.ip) (insSorted acc x) := by
  induction acc with
  | nil => simp [insSorted]
  | cons y ys ih =>
    rw [List.sorted_cons] at h
    obtain ⟨hy, hys⟩ := h
    unfold insSorted
    split
    · rename_i hlt
      rw [List.sorted_cons]
      refine ⟨?_, List.sorted_cons.mpr ⟨hy, hys⟩⟩
      intro z hz
      rcases List.mem_cons.mp hz with rfl | hz'
      · exact Nat.le_of_lt hlt
      · exact Nat.le_trans (Nat.le_of_lt hlt) (hy z hz')
    · rename_i hnlt
      rw [List.sorted_cons]
      refine ⟨?_, ih hys⟩
      intro z hz
      rcases (mem_insSorted z x ys).mp hz with rfl | hz'
      · exact Nat.le_of_not_lt hnlt
      · exact hy z hz'

lemma sorted_foldl_insSorted : ∀ (l acc : List Block),
    List.Sorted (fun p q : Block => p.ip ≤ q.ip) acc →
    List.Sorted (fun p q : Block => p.ip ≤ q.ip) (l.foldl insSorted acc)
  | [], _, h => h
  | x :: l, acc, h => sorted_foldl_insSorted l (insSorted acc x) (sorted_insSorted x h)

lemma sorted_sortByBase (l : List Block) :
    List.Sorted (fun p q : Block => p.ip ≤ q.ip) (sortByBase l) :=
  sorted_foldl_insSorted l [] List.sorted_nil

lemma mergeKeep_sublist : ∀ (cs : List Block) (last : Block),
    (mergeKeep last cs).Sublist cs
  | [], _ => List.Sublist.refl _
  | c :: cs, last => by
    unfold mergeKeep
    split
    · exact List.Sublist.cons c (mergeKeep_sublist cs last)
    · exact List.Sublist.cons₂ c (mergeKeep_sublist cs c)

/-- Successive kept blocks of the merge scan are separated: each one's
range ends at or before the next one's base address. -/
def sepR (x y : Block) : Prop := x.ip + blockSize x ≤ y.ip

lemma pairwise_sep_mergeKeep : ∀ (cs : List Block) (last : Block),
    (∀ b ∈ last :: cs, Canonical b) →
    List.Sorted (fun p q : Block => p.ip ≤ q.ip) (last :: cs) →
    List.Pairwise sepR (last :: mergeKeep last cs)
  | [], _, _, _ => by simp [mergeKeep]
  | c :: cs, last, hcan, hsort => by
    rw [List.sorted_cons] at hsort
    obtain ⟨hle, hsort'⟩ := hsort
    unfold mergeKeep
    split
    · apply pairwise_sep_mergeKeep cs last
      · intro b hb
        apply hcan
        rcases List.mem_cons.mp hb with rfl | h
        · exact List.mem_cons_self _ _
        · exact List.mem_cons_of_mem _ (List.mem_cons_of_mem _ h)
      · rw [List.sorted_cons]
        exact ⟨fun b hb => hle b (List.mem_cons_of_mem _ hb), (List.sorted_cons.mp hsort').2⟩
    · rename_i hncont
      have hsl : sepR last c := by
        have hclast : Canonical last := hcan last (List.mem_cons_self _ _)
        have h1 : last.ip ≤ c.ip := hle c (List.mem_cons_self _ _)
        unfold sepR
        by_contra hlt
        push_neg at hlt
        exact hncont ((containsIP_true_iff last c.ip hclast).mpr ⟨h1, hlt⟩)
      have hrest := pairwise_sep_mergeKeep cs c
        (fun b hb => hcan b (List.mem_cons_of_mem _ hb)) hsort'
      rw [List.pairwise_cons]
      refine ⟨?_, hrest⟩
      intro y hy
      rcases List.mem_cons.mp hy with rfl | hy'
      · exact hsl
      · have hcy : sepR c y := (List.pairwise_cons.mp hrest).1 y hy'
        have hpos : 0 < blockSize c := two_pow_pos_size c
        unfold sepR at *
        omega

lemma filter_sep_length_le_one : ∀ (o : List Block) (ip : Nat),
    List.Pairwise sepR o → (∀ b ∈ o, Canonical b) →
    (o.filter (fun b => containsIP b ip)).length ≤ 1
  | [], _, _, _ => by simp
  | x :: o, ip, hp, hcan => by
    rw [List.pairwise_cons] at hp
    obtain ⟨hx, hp'⟩ := hp
    have hrec := filter_sep_length_le_one o ip hp'
      (fun b hb => hcan b (List.mem_cons_of_mem _ hb))
    cases hcx : containsIP x ip with
    | false => simpa [List.filter_cons, hcx] using hrec
    | true =>
      have hnil : o.filter (fun b => containsIP b ip) = [] := by
        rw [List.filter_eq_nil_iff]
        intro y hy hcy
        have hxy := hx y hy
        have h1 := (containsIP_true_iff x ip (hcan x (List.mem_cons_self _ _))).mp hcx
        have h2 := (containsIP_true_iff y ip
          (hcan y (List.mem_cons_of_mem _ hy))).mp (by simpa using hcy)
        unfold sepR at hxy
        omega
      simp [List.filter_cons, hcx, hnil]

lemma parseIPChars_eq_none_iff (cs : List Char) :
    parseIPChars cs = none ↔ wellFormedIPv4Chars cs = false := by
  unfold parseIPChars wellFormedIPv4Chars
  generalize splitOnChar '.' cs = x
  rcases x with _ | ⟨a, _ | ⟨b, _ | ⟨c, _ | ⟨d, _ | ⟨e, rest⟩⟩⟩⟩⟩
  · simp
  · simp
  · simp
  · simp
  · unfold parseIPFields
    split <;> simp_all
  · simp

/-- Every character of a string is the separator or belongs to one of
the split fields. -/
lemma splitOnChar_chars (sep : Char) : ∀ (cs : List Char) (c : Char), c ∈ cs →
    c = sep ∨ ∃ f ∈ splitOnChar sep cs, c ∈ f
  | [], c, hc => absurd hc (List.not_mem_nil c)
  | x :: rest, c, hc => by
    unfold splitOnChar
    split
    · rename_i hx
      rcases List.mem_cons.mp hc with rfl | hr
      · exact Or.inl hx
      · rcases splitOnChar_chars sep rest c hr with h | ⟨f, hf, hcf⟩
        · exact Or.inl h
        · exact Or.inr ⟨f, List.mem_cons_of_mem _ hf, hcf⟩
    · rcases hsp : splitOnChar sep rest with _ | ⟨f, fs⟩
      · rcases List.mem_cons.mp hc with rfl | hr
        · exact Or.inr ⟨[c], List.mem_cons_self _ _, List.mem_cons_self _ _⟩
        · rcases splitOnChar_chars sep rest c hr with h | ⟨f, hf, _⟩
          · exact Or.inl h
          · rw [hsp] at hf
            exact absurd hf (List.not_mem_nil f)
      · rcases List.mem_cons.mp hc with rfl | hr
        · exact Or.inr ⟨c :: f, List.mem_cons_self _ _, List.mem_cons_self _ _⟩
        · rcases splitOnChar_chars sep rest c hr with h | ⟨g, hg, hcg⟩
          · exact Or.inl h
          · rw [hsp] at hg
            rcases List.mem_cons.mp hg with rfl | hg2
            · exact Or.inr ⟨x :: g, List.mem_cons_self _ _, List.mem_cons_of_mem _ hcg⟩
            · exact Or.inr ⟨g, List.mem_cons_of_mem _ hg2, hcg⟩

lemma validOctetStr_digits {f : List Char} (h : validOctetStr f = true) :
    ∀ c ∈ f, c.isDigit = true := by
  unfold validOctetStr at h
  simp only [Bool.and_eq_true, List.all_eq_true] at h
  exact h.1.1.2

lemma validOctetStr_le {f : List Char} (h : validOctetStr f = true) :
    digitsToNat f ≤ 255 := by
  unfold validOctetStr at h
  simp only [Bool.and_eq_true, decide_eq_true_eq] at h
  exact h.2

/-- A well-formed dotted quad parses, and its value fits in 32 bits. -/
lemma parseIPChars_isSome_of_wellFormed (cs : List Char)
    (hw : wellFormedIPv4Chars cs = true) :
    ∃ a, parseIPChars cs = some a ∧ a < 2 ^ 32 := by
  unfold wellFormedIPv4Chars at hw
  unfold parseIPChars
  rcases hsp : splitOnChar '.' cs with _ | ⟨f1, _ | ⟨f2, _ | ⟨f3, _ | ⟨f4, _ | ⟨f5, r⟩⟩⟩⟩⟩ <;>
    rw [hsp] at hw
  · exact Bool.noConfusion (show false = true from hw)
  · exact Bool.noConfusion (show false = true from hw)
  · exact Bool.noConfusion (show false = true from hw)
  · exact Bool.noConfusion (show false = true from hw)
  · have hw2 : (validOctetStr f1 && validOctetStr f2 && validOctetStr f3
        && validOctetStr f4) = true := hw
    have hv : parseIPFields f1 f2 f3 f4
        = some (((digitsToNat f1 * 256 + digitsToNat f2) * 256 + digitsToNat f3) * 256
          + digitsToNat f4) := by
      unfold parseIPFields
      rw [if_pos hw2]
    refine ⟨_, hv, ?_⟩
    simp only [Bool.and_eq_true] at hw2
    have h1 := validOctetStr_le hw2.1.1.1
    have h2 := validOctetStr_le hw2.1.1.2
    have h3 := validOctetStr_le hw2.1.2
    have h4 := validOctetStr_le hw2.2
    omega
  · exact Bool.noConfusion (show false = true from hw)

/-- Every character of a well-formed dotted quad is a dot or a digit. -/
lemma wellFormed_chars (cs : List Char) (hw : wellFormedIPv4Chars cs = true) :
    ∀ c ∈ cs, c = '.' ∨ c.isDigit = true := by
  intro c hc
  rcases splitOnChar_chars '.' cs c hc with h | ⟨f, hf, hcf⟩
  · exact Or.inl h
  · right
    unfold wellFormedIPv4Chars at hw
    rcases hsp : splitOnChar '.' cs with _ | ⟨f1, _ | ⟨f2, _ | ⟨f3, _ | ⟨f4, _ | ⟨f5, r⟩⟩⟩⟩⟩ <;>
      rw [hsp] at hw hf
    · exact Bool.noConfusion (show false = true from hw)
    · exact Bool.noConfusion (show false = true from hw)
    · exact Bool.noConfusion (show false = true from hw)
    · exact Bool.noConfusion (show false = true from hw)
    · have hw2 : (validOctetStr f1 && validOctetStr f2 && validOctetStr f3
          && validOctetStr f4) = true := hw
      simp only [Bool.and_eq_true] at hw2
      simp only [List.mem_cons] at hf
      rcases hf with rfl | rfl | rfl | rfl | h5
      · exact validOctetStr_digits hw2.1.1.1 c hcf
      · exact validOctetStr_digits hw2.1.1.2 c hcf
      · exact validOctetStr_digits hw2.1.2 c hcf
      · exact validOctetStr_digits hw2.2 c hcf
      · exact absurd h5 (List.not_mem_nil f)
    · exact Bool.noConfusion (show false = true from hw)

/-- In a text whose characters are dots or digits, with at least one
dot, the dispatch finds a dot. -/
lemma firstSpecial_dot : ∀ (cs : List Char),
    (∀ c ∈ cs, c = '.' ∨ c.isDigit = true) → '.' ∈ cs →
    firstSpecial cs = some '.'
  | [], _, hdot => absurd hdot (List.not_mem_nil _)
  | c :: rest, hall, hdot => by
    unfold firstSpecial
    rcases hall c (List.mem_cons_self _ _) with rfl | hd
    · rw [if_pos (Or.inl rfl)]
    · have hne1 : c ≠ '.' := fun h => by rw [h] at hd; exact absurd hd (by decide)
      have hne2 : c ≠ ':' := fun h => by rw [h] at hd; exact absurd hd (by decide)
      rw [if_neg (by tauto)]
      apply firstSpecial_dot rest (fun x hx => hall x (List.mem_cons_of_mem _ hx))
      rcases List.mem_cons.mp hdot with h | h
      · exact absurd h.symm hne1
      · exact h

/-- Splitting on a separator that does not occur yields the single
whole field. -/
lemma splitOnChar_of_not_mem (sep : Char) : ∀ (cs : List Char), sep ∉ cs →
    splitOnChar sep cs = [cs]
  | [], _ => rfl
  | x :: rest, h => by
    unfold splitOnChar
    rw [if_neg (fun he => h (List.mem_cons.mpr (Or.inl he.symm))),
      splitOnChar_of_not_mem sep rest (fun hm => h (List.mem_cons_of_mem _ hm))]

/-- A well-formed dotted quad takes the IPv4 branch of `ParseIP` and
comes back IPv4-mapped. -/
lemma parseIP_v4_dispatch (cs : List Char) (hw : wellFormedIPv4Chars cs = true)
    {a : Nat} (ha : parseIPChars cs = some a) :
    parseIPAddrChars cs = some (65535 * 2 ^ 32 + a) := by
  have hchars := wellFormed_chars cs hw
  have hnp : '%' ∉ cs := by
    intro h
    rcases hchars '%' h with h1 | h1
    · exact absurd h1 (by decide)
    · exact absurd h1 (by decide)
  have hdot : '.' ∈ cs := by
    by_contra hnd
    have hone := splitOnChar_of_not_mem '.' cs hnd
    unfold wellFormedIPv4Chars at hw
    rw [hone] at hw
    exact Bool.noConfusion (show false = true from hw)
  have hfs : firstSpecial cs = some '.' := firstSpecial_dot cs hchars hdot
  unfold parseIPAddrChars
  rw [if_neg hnp, hfs, ha]
  rfl

/-- On an IPv4-mapped address, the membership test of `Contains` is the
plain IPv4 mask test. -/
lemma queryMatches_v4 (b : Block) (a : Nat) (ha : a < 2 ^ 32) :
    queryMatches b (65535 * 2 ^ 32 + a) = containsIP b a := by
  have h1 : (65535 * 2 ^ 32 + a) / 2 ^ 32 = 65535 := by
    rw [Nat.mul_comm, Nat.mul_add_div (by norm_num), Nat.div_eq_of_lt ha, Nat.add_zero]
  have h2 : (65535 * 2 ^ 32 + a) % 2 ^ 32 = a := by
    rw [Nat.add_comm, Nat.add_mul_mod_self_right, Nat.mod_eq_of_lt ha]
  unfold queryMatches toV4
  rw [h1, if_pos rfl, h2]

/-! ## Claim theorems -/

/-- C1: the claim says two equal-length blocks are combined iff they are
bit-aligned siblings (equal address masked to `p-1` bits and bases
differing by `2^(32-p)`), and that a pair at a small address distance
without a common parent is never combined.  The code's `canAggregate`
performs no bit-alignment test: `10.0.1.0/24` and `10.0.2.0/24` have
different parents at `/23` (`10.0.0.0` vs `10.0.2.0`), yet
`canAggregate` accepts them and `aggregateCIDRs` combines them into
`10.0.0.0/23`, a block that does not even contain `10.0.2.0`.  The
first revision's `canAggregate` instead combines two identical blocks,
which are not siblings either. -/
theorem canAggregate_ignores_bit_alignment :
    canAggregate ⟨167772416, 24⟩ ⟨167772672, 24⟩ = true
    ∧ maskAddr 167772416 23 ≠ maskAddr 167772672 23
    ∧ aggregateCIDRs [⟨167772416, 24⟩, ⟨167772672, 24⟩] = [⟨167772160, 23⟩]
    ∧ containsIP ⟨167772160, 23⟩ 167772672 = false
    ∧ canAggregateV1 ⟨167772160, 24⟩ ⟨167772160, 24⟩ = true := by
  decide

/-- C2: the claim says `Aggregate` is run to a fixed point, so that the
four blocks `192.168.0.0/24 .. 192.168.3.0/24` collapse to
`192.168.0.0/22`.  The code's `aggregateCIDRs` makes a single pass:
it returns the two `/23` blocks and never re-runs, so the result is not
`[192.168.0.0/22]`. -/
theorem aggregate_single_pass_not_fixed_point :
    aggregateCIDRs
        [⟨3232235520, 24⟩, ⟨3232235776, 24⟩, ⟨3232236032, 24⟩, ⟨3232236288, 24⟩]
      = [⟨3232235520, 23⟩, ⟨3232236032, 23⟩]
    ∧ aggregateCIDRs
        [⟨3232235520, 24⟩, ⟨3232235776, 24⟩, ⟨3232236032, 24⟩, ⟨3232236288, 24⟩]
      ≠ [⟨3232235520, 22⟩] := by
  decide

/-- C3 counterexample: the claim says `"192.*.1.*"` fails with the
`NonContiguousWildcard` error.  The code's `parseWildcard` accepts it:
the wildcard regular expression allows a star in any field, the stars
become `0` octets, the mask length becomes `32 - 8*2 = 16`, and
`parseCIDR("192.0.1.0/16")` masks the base to `192.0.0.0`. -/
theorem parseWildcard_non_contiguous_accepted :
    parseWildcard "192.*.1.*" = some ⟨3221225472, 16⟩ := by
  decide

/-- C3 amended: wildcard fields are accepted at any position of the
four-field list, not only as a suffix; each star contributes a zero
octet and removes 8 bits from the `/32` mask length, and the resulting
base address is masked.  So `"192.168.1.*"` gives `192.168.1.0/24`,
`"*.*.*.1"` gives `0.0.0.0/8`, and `"192.*.1.5"` gives `192.0.1.0/24`. -/
theorem parseWildcard_star_position_free :
    parseWildcard "192.168.1.*" = some ⟨3232235776, 24⟩
    ∧ parseWildcard "*.*.*.1" = some ⟨0, 8⟩
    ∧ parseWildcard "192.*.1.5" = some ⟨3221225728, 24⟩ := by
  decide

/-- C4: the claim says `Merge` preserves the union of covered addresses.
On input `[10.0.0.0/24, 10.0.0.0/8]` the comparator of `mergeCIDRs`
looks only at base addresses, the tie keeps the narrower `/24` first,
and the broader `/8` is dropped because its base address is contained
in the `/24`.  Address `10.1.0.0` (`167837696`) is covered by the input
but by no block of the output. -/
theorem merge_loses_coverage :
    mergeCIDRs [⟨167772160, 24⟩, ⟨167772160, 8⟩] = [⟨167772160, 24⟩]
    ∧ containsIP ⟨167772160, 8⟩ 167837696 = true
    ∧ ((mergeCIDRs [⟨167772160, 24⟩, ⟨167772160, 8⟩]).all
        fun b => !containsIP b 167837696) = true := by
  decide

/-- C5: the claim says the sort places the broader block (smaller mask
length) first on a base-address tie, so the narrower one is dropped.
The comparator of `mergeCIDRs` compares only `bytes.Compare` of the
base addresses, so the tie keeps the input order: with the narrower
`10.0.0.0/24` first, the sort leaves it first and `mergeCIDRs` keeps
the narrower block and drops the broader `10.0.0.0/8`. -/
theorem merge_no_mask_tie_break :
    sortByBase [⟨167772160, 24⟩, ⟨167772160, 8⟩]
      = [⟨167772160, 24⟩, ⟨167772160, 8⟩]
    ∧ mergeCIDRs [⟨167772160, 24⟩, ⟨167772160, 8⟩] = [⟨167772160, 24⟩] := by
  decide

/-- C6: the claim says `Aggregate(Aggregate(S)) = Aggregate(S)` for all
`S`.  For the four blocks `192.168.0.0/24 .. 192.168.3.0/24` a first
application yields the two `/23` blocks and a second application
combines those into `192.168.0.0/22`, so the two sides differ. -/
theorem aggregate_not_idempotent :
    aggregateCIDRs (aggregateCIDRs
        [⟨3232235520, 24⟩, ⟨3232235776, 24⟩, ⟨3232236032, 24⟩, ⟨3232236288, 24⟩])
      ≠ aggregateCIDRs
        [⟨3232235520, 24⟩, ⟨3232235776, 24⟩, ⟨3232236032, 24⟩, ⟨3232236288, 24⟩] := by
  decide

/-- C7: whenever a CIDR text parses (valid dotted quad and mask length,
host bits arbitrary), `parseCIDR` succeeds and returns the block whose
base is the address masked to the mask length — the host bits are
zeroed, never cause a rejection, and the stored base has no host bits. -/
theorem parseCIDR_masks_host_bits (s : String) (a n : Nat)
    (h : parseCIDRRaw s = some (a, n)) :
    parseCIDR s = some ⟨maskAddr a n, n⟩ ∧ maskAddr a n % 2 ^ (32 - n) = 0 := by
  constructor
  · show (parseCIDRRawChars s.data).map (fun p => (⟨maskAddr p.1 p.2, p.2⟩ : Block))
      = some ⟨maskAddr a n, n⟩
    rw [show parseCIDRRawChars s.data = some (a, n) from h]
    rfl
  · exact Nat.mul_mod_left _ _

/-- C7 witness: `"192.168.1.5/24"` parses; its raw address
`3232235781` is masked to `3232235776` (= `192.168.1.0`), and the
resulting block renders as `"192.168.1.0/24"`. -/
theorem parseCIDR_masks_host_bits_witness :
    parseCIDRRaw "192.168.1.5/24" = some (3232235781, 24)
    ∧ parseCIDR "192.168.1.5/24" = some ⟨3232235776, 24⟩
    ∧ renderBlock ⟨3232235776, 24⟩ = "192.168.1.0/24" := by
  refine ⟨by decide, ?_, by decide⟩
  have h := parseCIDR_masks_host_bits "192.168.1.5/24" 3232235781 24 (by decide)
  rw [h.1]
  decide

/-- C8: membership against a merged set finds at most one block: for any
input of canonical blocks, at most one block of `mergeCIDRs`' output
contains any given address.  Against a raw, unmerged set several
matches are possible: querying `10.0.0.1` against the unmerged
`[10.0.0.0/8, 10.0.0.0/24]` returns both blocks. -/
theorem merge_at_most_one_match (l : List Block)
    (hc : ∀ b ∈ l, Canonical b) (ip : Nat) :
    ((mergeCIDRs l).filter (fun b => containsIP b ip)).length ≤ 1
    ∧ ipBelongsToCIDR "10.0.0.1" [⟨167772160, 8⟩, ⟨167772160, 24⟩]
      = some [⟨167772160, 8⟩, ⟨167772160, 24⟩] := by
  refine ⟨?_, by decide⟩
  rcases hs : sortByBase l with _ | ⟨c, cs⟩
  · simp [mergeCIDRs, hs]
  · have hmem : ∀ b ∈ c :: cs, Canonical b := by
      intro b hb
      exact hc b ((mem_sortByBase b l).mp (hs ▸ hb))
    have hsort : List.Sorted (fun p q : Block => p.ip ≤ q.ip) (c :: cs) :=
      hs ▸ sorted_sortByBase l
    have hpw := pairwise_sep_mergeKeep cs c hmem hsort
    have hcanout : ∀ b ∈ c :: mergeKeep c cs, Canonical b := by
      intro b hb
      apply hmem
      rcases List.mem_cons.mp hb with rfl | hb'
      · exact List.mem_cons_self _ _
      · exact List.mem_cons_of_mem _ ((mergeKeep_sublist cs c).subset hb')
    have hlen := filter_sep_length_le_one (c :: mergeKeep c cs) ip hpw hcanout
    simpa [mergeCIDRs, hs] using hlen

/-- C8 witness: the merged form of `[10.0.0.0/8, 192.168.0.0/24]`
matches address `10.0.0.1` at most once. -/
theorem merge_at_most_one_match_witness :
    ((mergeCIDRs [⟨167772160, 8⟩, ⟨3232235520, 24⟩]).filter
      (fun b => containsIP b 167772161)).length ≤ 1 :=
  (merge_at_most_one_match [⟨167772160, 8⟩, ⟨3232235520, 24⟩] (by decide) 167772161).1

/-- C9 counterexample: the claim says the membership check errors
exactly when the query is not a well-formed IPv4 literal.  `"::1"` is
not a well-formed IPv4 literal, yet `net.ParseIP` accepts it as an IPv6
literal, so `ipBelongsToCIDR` returns the empty match list without
error. -/
theorem contains_accepts_ipv6_query :
    wellFormedIPv4 "::1" = false
    ∧ ipBelongsToCIDR "::1" [⟨3232235520, 24⟩, ⟨167772160, 8⟩] = some [] := by
  decide

/-- C9 amended: the membership check errors exactly when `net.ParseIP`
rejects the query, i.e. when it is neither a well-formed IPv4 literal
nor a well-formed IPv6 literal.  Every well-formed IPv4 query is
answered without error by the blocks of the set containing the address,
in set order; any accepted query (IPv6 literals included) is answered
without error by the blocks matching its `To4` form, in set order. -/
theorem contains_error_iff_unparsable (s : String) (l : List Block) :
    (ipBelongsToCIDR s l = none ↔ parseIP s = none)
    ∧ (wellFormedIPv4 s = true → ∃ a, parseIPChars s.data = some a
        ∧ parseIP s = some (65535 * 2 ^ 32 + a)
        ∧ ipBelongsToCIDR s l = some (l.filter (fun c => containsIP c a))
        ∧ (l.filter (fun c => containsIP c a)).Sublist l)
    ∧ ∀ v, parseIP s = some v →
        ipBelongsToCIDR s l = some (l.filter (fun c => queryMatches c v))
        ∧ (l.filter (fun c => queryMatches c v)).Sublist l := by
  refine ⟨?_, ?_, ?_⟩
  · cases h : parseIP s with
    | none => simp [ipBelongsToCIDR, h]
    | some v => simp [ipBelongsToCIDR, h]
  · intro hw
    obtain ⟨a, ha, hlt⟩ := parseIPChars_isSome_of_wellFormed s.data hw
    have hdis : parseIP s = some (65535 * 2 ^ 32 + a) := parseIP_v4_dispatch s.data hw ha
    refine ⟨a, ha, hdis, ?_, List.filter_sublist l⟩
    rw [ipBelongsToCIDR, hdis]
    have hq : l.filter (fun c => queryMatches c (65535 * 2 ^ 32 + a))
        = l.filter (fun c => containsIP c a) :=
      List.filter_congr (fun c _ => queryMatches_v4 c a hlt)
    show some (l.filter (fun c => queryMatches c (65535 * 2 ^ 32 + a)))
      = some (l.filter (fun c => containsIP c a))
    rw [hq]
  · intro v hv
    rw [ipBelongsToCIDR, hv]
    exact ⟨rfl, List.filter_sublist l⟩

/-- C9 witness: the spec's membership examples plus the IPv6 cases.
Against `[192.168.0.0/24, 10.0.0.0/8]`: the well-formed IPv4 query
`"192.168.0.5"` returns exactly `[192.168.0.0/24]`, `"172.16.0.1"`
returns the empty list without error, `"not-an-ip"` errors, and the
IPv4-mapped IPv6 query `"::ffff:10.0.0.1"` matches the `/8`. -/
theorem contains_error_iff_unparsable_witness :
    wellFormedIPv4 "192.168.0.5" = true
    ∧ ipBelongsToCIDR "192.168.0.5" [⟨3232235520, 24⟩, ⟨167772160, 8⟩]
      = some [⟨3232235520, 24⟩]
    ∧ ipBelongsToCIDR "172.16.0.1" [⟨3232235520, 24⟩, ⟨167772160, 8⟩] = some []
    ∧ ipBelongsToCIDR "not-an-ip" [⟨3232235520, 24⟩, ⟨167772160, 8⟩] = none
    ∧ ipBelongsToCIDR "::ffff:10.0.0.1" [⟨3232235520, 24⟩, ⟨167772160, 8⟩]
      = some [⟨167772160, 8⟩] := by
  refine ⟨by decide, ?_, by decide, ?_, by decide⟩
  · obtain ⟨a, ha, -, hb, -⟩ := (contains_error_iff_unparsable "192.168.0.5"
      [⟨3232235520, 24⟩, ⟨167772160, 8⟩]).2.1 (by decide)
    have hav : a = 3232235525 := by
      rw [show parseIPChars ("192.168.0.5".data) = some 3232235525 from by decide] at ha
      exact (Option.some_inj.mp ha).symm
    rw [hav] at hb
    rw [hb]
    decide
  · exact (contains_error_iff_unparsable "not-an-ip"
      [⟨3232235520, 24⟩, ⟨167772160, 8⟩]).1.mpr (by decide)

/-- C10: `mergeCIDRs` never constructs or modifies a block: its output
is a subsequence of the sorted input, and every output block is one of
the input blocks. -/
theorem merge_output_subsequence (l : List Block) :
    (mergeCIDRs l).Sublist (sortByBase l) ∧ ∀ b, b ∈ mergeCIDRs l → b ∈ l := by
  have hsub : (mergeCIDRs l).Sublist (sortByBase l) := by
    rcases hs : sortByBase l with _ | ⟨c, cs⟩
    · simp [mergeCIDRs, hs]
    · rw [mergeCIDRs, hs]
      exact List.Sublist.cons₂ c (mergeKeep_sublist cs c)
  refine ⟨hsub, ?_⟩
  intro b hb
  exact (mem_sortByBase b l).mp (hsub.subset hb)

/-- C10 witness: on `[10.0.0.0/24, 10.0.0.0/8]` the kept block
`10.0.0.0/24` is indeed one of the input blocks. -/
theorem merge_output_subsequence_witness :
    (⟨167772160, 24⟩ : Block) ∈ ([⟨167772160, 24⟩, ⟨167772160, 8⟩] : List Block) :=
  (merge_output_subsequence [⟨167772160, 24⟩, ⟨167772160, 8⟩]).2 ⟨167772160, 24⟩ (by decide)

end CidrConverter
